import Mathlib

/-!
Verification of the dependency-resolution core of `gen_cmake.py`
(`CMakeGenerator`): path expansion, location resolution, import-method
classification, shared-library probing, and the memoized project-graph
builder `process_project`.  Filesystem access is modelled by an explicit
`FS` value; paths are POSIX-style strings and the path helpers below embed
the `os.path` functions the source uses.
-/

deriving instance DecidableEq for Except

namespace CMakeTool

/-- Embeds `os.path.isabs` for POSIX paths: the path starts with a slash. -/
def isAbs (p : String) : Bool :=
  match p.toList with
  | '/' :: _ => true
  | _ => false

/-- Embeds `posixpath.join a b` for a single pair: an absolute second
argument wins; otherwise the parts are glued with a single separator. -/
def pjoin (a b : String) : String :=
  if isAbs b then b
  else if a = "" then b
  else if (match a.toList.getLast? with | some '/' => true | _ => false) then a ++ b
  else a ++ "/" ++ b

/-- Embeds `os.path.basename`: the characters after the last slash. -/
def basename (p : String) : String :=
  ⟨(p.toList.reverse.takeWhile (fun c => c ≠ '/')).reverse⟩

/-- Embeds `os.path.dirname`: the part before the last slash, with
trailing slashes stripped unless the result is all slashes. -/
def dirname (p : String) : String :=
  let head := (p.toList.reverse.dropWhile (fun c => c ≠ '/')).reverse
  if head ≠ [] ∧ head.any (fun c => c ≠ '/') then
    ⟨(head.reverse.dropWhile (fun c => c = '/')).reverse⟩
  else ⟨head⟩

/-- Embeds `posixpath.normpath`: drops empty and dot components, resolves
dot-dot against preceding components, and preserves leading slashes
(two leading slashes are kept as two, per POSIX). -/
def splitSlashAux : List Char → List Char → List String
  | acc, [] => [⟨acc.reverse⟩]
  | acc, c :: t => if c = '/' then (⟨acc.reverse⟩ : String) :: splitSlashAux [] t
                   else splitSlashAux (c :: acc) t

/-- Splits a string on slashes, like `str.split('/')`. -/
def splitSlash (p : String) : List String := splitSlashAux [] p.toList

/-- Joins components with single slashes, like `'/'.join`. -/
def joinSlash : List String → String
  | [] => ""
  | [x] => x
  | x :: xs => x ++ "/" ++ joinSlash xs

/-- Embeds `posixpath.normpath`: drops empty and dot components, resolves
dot-dot against preceding components, and preserves leading slashes
(two leading slashes are kept as two, per POSIX). -/
def normPath (p : String) : String :=
  if p = "" then "." else
  let initSlashes : Nat :=
    match p.toList with
    | '/' :: '/' :: '/' :: _ => 1
    | '/' :: '/' :: _ => 2
    | '/' :: _ => 1
    | _ => 0
  let comps := (splitSlash p).filter (fun c => c ≠ "" ∧ c ≠ ".")
  let newComps := comps.foldl (fun acc comp =>
      if comp ≠ ".." ∨ (initSlashes = 0 ∧ acc = []) ∨ (acc ≠ [] ∧ acc.getLast? = some "..")
      then acc ++ [comp]
      else if acc ≠ [] then acc.dropLast else acc) []
  let res := (⟨List.replicate initSlashes '/'⟩ : String) ++ joinSlash newComps
  if res = "" then "." else res

/-- Lowercases a string character by character, embedding `str.lower`
for the ASCII names the tool manipulates. -/
def lowerS (s : String) : String := ⟨s.toList.map Char.toLower⟩

/-- Character class of the `[A-Za-z0-9_]` group in the placeholder
regexes of `expand_env_vars`. -/
def isNameChar (c : Char) : Bool := c.isAlpha || c.isDigit || c == '_'

/-- Environment for placeholder expansion: variable name to value.
`envGet` embeds `os.environ.get(name, "")`. -/
abbrev Env := List (String × String)

/-- Looks a variable up in the environment, defaulting to the empty string. -/
def envGet : Env → String → String
  | [], _ => ""
  | (k, v) :: t, n => if n = k then v else envGet t n

/-- Parses a brace-delimited placeholder body right after a dollar sign:
an opening brace, a nonempty run of name characters, a closing brace.
Returns the name and the remaining characters, or none if the regex
alternative would not match here. -/
def parseBrace (cs : List Char) : Option (List Char × List Char) :=
  if cs.head? = some '\x7b' then
    if (cs.tail.dropWhile isNameChar).head? = some '\x7d' ∧
        ¬ (cs.tail.takeWhile isNameChar).isEmpty then
      some (cs.tail.takeWhile isNameChar, (cs.tail.dropWhile isNameChar).tail)
    else none
  else none

/-- Parses a percent-terminated placeholder body right after a percent
sign: a nonempty run of name characters followed by a percent sign. -/
def parsePercent (cs : List Char) : Option (List Char × List Char) :=
  if (cs.dropWhile isNameChar).head? = some '%' ∧
      ¬ (cs.takeWhile isNameChar).isEmpty then
    some (cs.takeWhile isNameChar, (cs.dropWhile isNameChar).tail)
  else none

theorem parseBrace_length {cs nm r4} (h : parseBrace cs = some (nm, r4)) :
    r4.length < cs.length := by
  unfold parseBrace at h
  split at h
  · split at h
    · simp only [Option.some.injEq, Prod.mk.injEq] at h
      have hd : (cs.tail.dropWhile isNameChar).length ≤ cs.tail.length :=
        (List.dropWhile_sublist (p := isNameChar) (l := cs.tail)).length_le
    -- the closing brace is present, so the drop-while remainder is nonempty
      rename_i hcs hcl
      have hne : cs.tail.dropWhile isNameChar ≠ [] := by
        intro hnil
        rw [hnil] at hcl
        simp at hcl
      have hcsne : cs ≠ [] := by
        intro hnil
        rw [hnil] at hcs
        simp at hcs
      have h4 : r4.length = (cs.tail.dropWhile isNameChar).length - 1 := by
        rw [← h.2]
        simp [List.length_tail]
      have htl : cs.tail.length = cs.length - 1 := by simp [List.length_tail]
      have hlen : 1 ≤ cs.length := by
        cases cs
        · exact absurd rfl hcsne
        · simp
      have hdn : 1 ≤ (cs.tail.dropWhile isNameChar).length := by
        cases hx : cs.tail.dropWhile isNameChar
        · exact absurd hx hne
        · simp
      omega
    · exact absurd h (by simp)
  · exact absurd h (by simp)

theorem parsePercent_length {cs nm r4} (h : parsePercent cs = some (nm, r4)) :
    r4.length ≤ cs.length := by
  unfold parsePercent at h
  split at h
  · simp only [Option.some.injEq, Prod.mk.injEq] at h
    have hd : (cs.dropWhile isNameChar).length ≤ cs.length :=
      (List.dropWhile_sublist (p := isNameChar) (l := cs)).length_le
    have h4 : r4.length = (cs.dropWhile isNameChar).length - 1 := by
      rw [← h.2]
      simp [List.length_tail]
    omega
  · exact absurd h (by simp)

/-- Embeds one `re.sub` pass replacing dollar-brace placeholders: at each
position the scanner either replaces a full placeholder or advances one
character, exactly as the regex engine scans for non-overlapping matches.
The `gas` argument is only a structural termination device: each step
consumes at least one character (`parseBrace_length`), so any gas of at
least the list length plus one is sufficient. -/
def expandDollarAux (env : Env) : Nat → List Char → List Char
  | 0, _ => []
  | _, [] => []
  | gas + 1, c :: rest =>
    if c = '$' then
      match parseBrace rest with
      | some (nm, r4) => (envGet env ⟨nm⟩).toList ++ expandDollarAux env gas r4
      | none => c :: expandDollarAux env gas rest
    else c :: expandDollarAux env gas rest

/-- Embeds one `re.sub` pass replacing percent-delimited placeholders,
with the same scanning discipline (and gas device) as the dollar form. -/
def expandPercentAux (env : Env) : Nat → List Char → List Char
  | 0, _ => []
  | _, [] => []
  | gas + 1, c :: rest =>
    if c = '%' then
      match parsePercent rest with
      | some (nm, r4) => (envGet env ⟨nm⟩).toList ++ expandPercentAux env gas r4
      | none => c :: expandPercentAux env gas rest
    else c :: expandPercentAux env gas rest

/-- Embeds `expand_env_vars`: the dollar-brace pass followed by the
percent pass. -/
def expand_env_vars (env : Env) (p : String) : String :=
  let d := expandDollarAux env (p.toList.length + 1) p.toList
  ⟨expandPercentAux env (d.length + 1) d⟩

/-- Decides whether the first list is a leading segment of the second. -/
def startsSeg : List Char → List Char → Bool
  | [], _ => true
  | _ :: _, [] => false
  | a :: as, b :: bs => a == b && startsSeg as bs

/-- Decides substring containment of character lists, embedding the
Python `in` operator on strings. -/
def hasSeg (n : List Char) : List Char → Bool
  | [] => n.isEmpty
  | c :: t => startsSeg n (c :: t) || hasSeg n t

/-- Leftmost index at which the first list occurs inside the second,
embedding `str.find` (which the source only calls on strings known to
contain the needle). -/
def segIdx (n : List Char) : List Char → Option Nat
  | [] => if n.isEmpty then some 0 else none
  | c :: t => if startsSeg n (c :: t) then some 0 else (segIdx n t).map (· + 1)

/-- Substring containment at the string level: needle, then haystack. -/
def containsSub (n hay : String) : Bool := hasSeg n.toList hay.toList

/-- Suffix test at the string level, embedding `str.endswith`. -/
def endsWithS (s suffix : String) : Bool :=
  startsSeg suffix.toList.reverse s.toList.reverse

/-- Manifest data as loaded from a `Project.json` file: name, declared
dependency strings, and the compile flags `process_project` reads. -/
structure Manifest where
  name : String
  dependencies : List String := []
  execCompile : Bool := false
  execEntry : Option String := none
  libCompile : Bool := false
deriving DecidableEq

/-- Explicit filesystem: the sets of existing directories and files
(absolute canonical paths), and the parsed manifest found at each
project directory that holds a `Project.json`. -/
structure FS where
  dirs : List String
  files : List String
  manifests : List (String × Manifest)
deriving DecidableEq

/-- Embeds `os.path.isdir`. -/
def FS.isDir (fs : FS) (p : String) : Bool := fs.dirs.any (fun q => q = p)

/-- Embeds `os.path.exists`. -/
def FS.pathExists (fs : FS) (p : String) : Bool :=
  fs.dirs.any (fun q => q = p) || fs.files.any (fun q => q = p)

/-- Embeds `os.listdir p`: names of the immediate entries of `p`. -/
def FS.entries (fs : FS) (p : String) : List String :=
  ((fs.dirs ++ fs.files).filter (fun q => dirname q = p)).map basename

/-- Immediate subdirectory names of `p` (the entries that are directories). -/
def FS.childDirs (fs : FS) (p : String) : List String :=
  (fs.dirs.filter (fun q => dirname q = p)).map basename

/-- Immediate file names of `p`. -/
def FS.filesIn (fs : FS) (p : String) : List String :=
  (fs.files.filter (fun q => dirname q = p)).map basename

/-- Association-list lookup with propositional equality on string keys. -/
def alookup {β : Type} : List (String × β) → String → Option β
  | [], _ => none
  | (k, v) :: t, k0 => if k0 = k then some v else alookup t k0

/-- The parsed manifest at a project directory, embedding `load_json`
on the directory's `Project.json`. -/
def FS.manifestAt (fs : FS) (dir : String) : Option Manifest :=
  alookup fs.manifests dir

/-! ## Import classifier (`check_import_method`, lines 46-129) -/

/-- The version-token keywords of the name-cleaning regex
`[-_]?(?:vc|gcc|clang|win|linux|mac)?\d+(?:[\.-]\d+)*.*$` (lowercase;
matching is case-insensitive). -/
def verKeywords : List (List Char) :=
  [['v','c'], ['g','c','c'], ['c','l','a','n','g'],
   ['w','i','n'], ['l','i','n','u','x'], ['m','a','c']]

/-- Whether the character at index `i` is an ASCII digit. -/
def digitAt (cs : List Char) (i : Nat) : Bool :=
  match cs.drop i with
  | c :: _ => c.isDigit
  | [] => false

/-- Case-insensitive literal keyword match at index `i`. -/
def kwAt (cs : List Char) (i : Nat) (kw : List Char) : Bool :=
  ((cs.drop i).take kw.length).map Char.toLower == kw

/-- Whether the cleaning regex matches starting at index `i`: an optional
dash or underscore, an optional toolchain keyword, then a digit (the
rest of the pattern matches any suffix, so this is the whole condition). -/
def stripMatchAt (cs : List Char) (i : Nat) : Bool :=
  (match cs.drop i with
    | c :: _ => if c == '-' || c == '_' then [i, i + 1] else [i]
    | [] => [i]).any fun j =>
      digitAt cs j || verKeywords.any fun kw => kwAt cs j kw && digitAt cs (j + kw.length)

/-- Embeds the cleaning `re.sub` of lines 66-68 (and 124-126): the name
is cut at the leftmost position where the version-suffix pattern matches,
falling back to the raw name when everything would be stripped. -/
def cleanName (tpName : String) : String :=
  let cs := tpName.toList
  let idx := (((List.range cs.length).filter (fun i => stripMatchAt cs i)).head?).getD cs.length
  let r := cs.take idx
  if r.isEmpty then tpName else ⟨r⟩

/-- Naming context for Config scoring: raw directory base name, cleaned
name, parent directory base name, and the bare-version-directory flag
(`any digit` and a period in the raw name, line 73). -/
structure ScoreCtx where
  tpName : String
  cleanN : String
  parentName : String
  isVersionDir : Bool
deriving DecidableEq

/-- Builds the scoring context from the resolved dependency path,
as lines 62-73 do. -/
def mkCtx (tpPath : String) : ScoreCtx :=
  { tpName := basename tpPath
    cleanN := cleanName (basename tpPath)
    parentName := basename (dirname tpPath)
    isVersionDir := (basename tpPath).toList.any Char.isDigit &&
      (basename tpPath).toList.any (fun c => c = '.') }

/-- The fixed denylist of non-package config files (line 76). -/
def ignoreConfigs : List String :=
  ["ctestconfig.cmake", "cpackconfig.cmake", "ctestcustom.cmake"]

/-- Embeds the score assignment of lines 91-101: the elif chain is
evaluated top to bottom, so the parent-name rule (score 8) is reached
only when none of the earlier conditions held. -/
def scoreFile (ctx : ScoreCtx) (f : String) : Nat :=
  let fl := lowerS f
  let cl := lowerS ctx.cleanN
  let tl := lowerS ctx.tpName
  let pl := lowerS ctx.parentName
  if fl = cl ++ "config.cmake" ∨ fl = cl ++ "-config.cmake" then 10
  else if fl = tl ++ "config.cmake" ∨ fl = tl ++ "-config.cmake" then 9
  else if containsSub cl fl then 7
  else if containsSub tl fl then 5
  else if ctx.isVersionDir ∧ (fl = pl ++ "config.cmake" ∨ containsSub pl fl) then 8
  else 0

/-- Embeds the candidate package-name derivation of lines 86-88: the
file name up to the first occurrence of the config suffix in its
lowercase form, trailing dashes stripped, falling back to the raw
directory name when empty. -/
def candName (ctx : ScoreCtx) (f : String) : String :=
  let fl := lowerS f
  let idx := (segIdx "config.cmake".toList fl.toList).getD 0
  let base : String := ⟨((f.toList.take idx).reverse.dropWhile (fun c => c == '-')).reverse⟩
  if base = "" then ctx.tpName else base

/-- One Config candidate: the file name, derived package name, the
directory it was found in, and its score (the dict of line 103 plus the
file name for bookkeeping). -/
structure Cand where
  file : String
  name : String
  root : String
  score : Nat
deriving DecidableEq

/-- Candidates contributed by the files of one visited directory, in
listing order: the denylist check precedes the suffix check, exactly as
lines 80-103. -/
def candsOfFiles (ctx : ScoreCtx) (root : String) (files : List String) : List Cand :=
  files.filterMap fun f =>
    let fl := lowerS f
    if ignoreConfigs.any (fun x => x = fl) then none
    else if endsWithS fl "config.cmake" || endsWithS fl "-config.cmake" then
      some ⟨f, candName ctx f, root, scoreFile ctx f⟩
    else none

/-- Embeds the `os.walk` scan of lines 78-108: the files of each visited
directory are examined first, and descent below a directory is pruned
once its depth (separator count below the dependency root) exceeds 5.
The extra `gas` argument is only a structural termination device; the
depth guard makes any value of at least 7 sufficient, which the
equivalence with `boundedScan` proves. -/
def configWalkG (fs : FS) (ctx : ScoreCtx) : Nat → String → Nat → List Cand
  | 0, _, _ => []
  | gas + 1, p, depth =>
    candsOfFiles ctx p (fs.filesIn p) ++
      (if depth > 5 then []
       else (fs.childDirs p).flatMap (fun d => configWalkG fs ctx gas (pjoin p d) (depth + 1)))

/-- The Config scan from the dependency root, at depth 0. -/
def configWalk (fs : FS) (ctx : ScoreCtx) (p : String) (depth : Nat) : List Cand :=
  configWalkG fs ctx 7 p depth

/-- Reference scan with an explicit level budget: visits the root and,
while the budget lasts, its subdirectories.  Used to state the depth
bound of the Config scan. -/
def boundedScan (fs : FS) (ctx : ScoreCtx) : Nat → String → List Cand
  | 0, p => candsOfFiles ctx p (fs.filesIn p)
  | b + 1, p =>
    candsOfFiles ctx p (fs.filesIn p) ++
      (fs.childDirs p).flatMap (fun d => boundedScan fs ctx b (pjoin p d))

/-- Embeds `max(candidates, key=score)` (line 112): the first candidate
of maximal score wins, later candidates replace the current best only
with a strictly greater score. -/
def pickBest (c : Cand) (cs : List Cand) : Cand :=
  cs.foldl (fun b x => if x.score > b.score then x else b) c

/-- The five import strategies plus the unknown outcome. -/
inductive Method where
  | projectM
  | moduleM
  | configM
  | sourceM
  | rootM
  | unknownM
deriving DecidableEq

/-- Embeds `check_import_method` (lines 46-129): Project marker, find
module, recursive Config scan, CMake source tree, include-plus-lib root,
otherwise unknown.  Returns method, marker location and package name. -/
def check_import_method (fs : FS) (tp_path : String) : Method × Option String × String :=
  if fs.pathExists (pjoin tp_path "Project.json") then
    (.projectM, some tp_path, basename tp_path)
  else if fs.pathExists (pjoin tp_path ("Find" ++ basename tp_path ++ ".cmake")) then
    (.moduleM, some tp_path, basename tp_path)
  else
    match configWalk fs (mkCtx tp_path) tp_path 0 with
    | c :: cs =>
      (.configM, some (pickBest c cs).root, (pickBest c cs).name)
    | [] =>
      if fs.pathExists (pjoin tp_path "CMakeLists.txt") then
        (.sourceM, some tp_path, basename tp_path)
      else if fs.isDir (pjoin tp_path "include") ∧ fs.isDir (pjoin tp_path "lib") then
        (.rootM, some tp_path, cleanName (basename tp_path))
      else (.unknownM, none, basename tp_path)

/-! ## Location resolver (`resolve_dependency`, lines 131-151) -/

/-- Return value of `resolve_dependency`.  The source returns a bare
3-tuple `(None, None, None)` on failure (lines 145 and 148) but a
4-tuple on success (line 151); the distinction is kept because the
caller unpacks four values. -/
inductive ResolveRet where
  | three
  | four (path : String) (m : Method) (loc : Option String) (pkg : String)
deriving DecidableEq

/-- Embeds `resolve_dependency`: absolute path, then relative to the
project directory, then relative to the third-party root; the resolved
entry must be a directory, after which the import method is classified. -/
def resolve_dependency (fs : FS) (third_party dep_path project_dir : String) : ResolveRet :=
  let finish (resolved : String) : ResolveRet :=
    if ¬ fs.isDir resolved then .three
    else
      match check_import_method fs resolved with
      | (m, loc, pkg) => .four resolved m loc pkg
  if isAbs dep_path then finish dep_path
  else if fs.pathExists (pjoin project_dir dep_path) then
    finish (normPath (pjoin project_dir dep_path))
  else if fs.pathExists (pjoin third_party dep_path) then
    finish (normPath (pjoin third_party dep_path))
  else .three

/-! ## Artifact prober (lines 244-253) and graph-builder data -/

/-- Embeds the DLL auto-discovery probe: `bin`, then the toolchain
nested `win64/vc14/bin`, then `lib`; the first candidate that exists and
contains an entry with the shared-library extension wins. -/
def probeDll (fs : FS) (path : String) : Option String :=
  [pjoin path "bin",
   pjoin (pjoin (pjoin path "win64") "vc14") "bin",
   pjoin path "lib"].find?
    (fun pbd => fs.pathExists pbd && (fs.entries pbd).any (fun e => endsWithS e ".dll"))

/-- The probe result as the list appended to `dll_copy_dirs`. -/
def dllProbeList (fs : FS) (path : String) : List String :=
  match probeDll fs path with
  | some d => [d]
  | none => []

/-- What `process_project` caches and returns per manifest (line 510):
the primary target name and the transitive artifact directories. -/
structure Descriptor where
  primary_target : Option String
  dll_copy_dirs : List String
deriving DecidableEq

/-- One import directive emitted for an accepted dependency, abstracting
the CMake command block appended per dependency. -/
inductive Directive where
  | moduleD (pkg loc path : String)
  | configD (pkg loc path : String)
  | sourceD (pkg path : String)
  | projectD (pkg : String) (target : Option String) (path : String)
  | rootD (pkg path : String)
deriving DecidableEq

/-- One linker target appended to `valid_deps_targets`. -/
inductive LinkTarget where
  | plain (n : String)
  | configExpr (pkg : String)
  | libVar (pkg : String)
deriving DecidableEq

/-- Observable events of a resolution run, in emission order: cache-miss
computations, generated outputs, emitted directives, and the diagnostics
the source prints. -/
inductive Event where
  | computed (dir : String)
  | generated (dir : String)
  | directive (dir : String) (d : Directive)
  | noteSkipSelf (dep : String)
  | warnUnknownSkip (name path : String)
  | warnWildcardEmpty (ref : String)
  | warnWildcardBase (base raw : String)
  | errNoProject (dir : String)
  | errDepNotFound (dep : String)
  | errNoEntry (name : String)
deriving DecidableEq

/-- How a run aborts: `sys.exit(1)` after a printed diagnostic, the
uncaught `ValueError` from unpacking a 3-tuple into four names
(line 231), or exhaustion of the recursion budget that models unbounded
manifest recursion. -/
inductive Err where
  | exitFailure
  | valueError
  | fuelExhausted
deriving DecidableEq

/-- The memo map `processed_projects`, keyed by manifest path. -/
abbrev Cache := List (String × Descriptor)

/-- Lookup in the memo map. -/
def lookupC (c : Cache) (k : String) : Option Descriptor := alookup c k

/-- Type of the recursive graph-builder call threaded through the
dependency loop. -/
abbrev ProcFn := Cache → String → Cache × List Event × Except Err Descriptor

/-- Contribution of one dependency to the loop state. -/
structure StepAdd where
  targets : List LinkTarget
  dlls : List String
deriving DecidableEq

/-- Loop state of the dependency loop: `valid_deps_targets` and
`dll_copy_dirs`. -/
structure LoopSt where
  targets : List LinkTarget
  dlls : List String
deriving DecidableEq

/-! ## Wildcard pre-pass (lines 192-216) -/

/-- Embeds the wildcard handling for one raw dependency: expand
placeholders, normalize, and either fan out to the immediate
subdirectories of the parent (warning if the parent is missing or has
no subdirectories) or keep the single expanded reference. -/
def wildSubdirs (fs : FS) (base : String) : List String :=
  (fs.entries base).filter (fun entry => fs.isDir (pjoin base entry))

/-- Embeds the wildcard fan-out body of lines 199-213. -/
def expandOneDep (fs : FS) (env : Env) (raw : String) : List String × List Event :=
  let e := expand_env_vars env raw
  let n := normPath e
  if endsWithS n "*" then
    let base := dirname n
    if fs.isDir base then
      if (wildSubdirs fs base).isEmpty then ([], [.warnWildcardEmpty e])
      else ((wildSubdirs fs base).map (fun entry => pjoin base entry), [])
    else ([], [.warnWildcardBase base raw])
  else ([e], [])

/-- The wildcard pre-pass over all declared dependencies, preserving
declaration order. -/
def expandWildcardDeps (fs : FS) (env : Env) : List String → List String × List Event
  | [] => ([], [])
  | raw :: rest =>
    let head := expandOneDep fs env raw
    let tail := expandWildcardDeps fs env rest
    (head.1 ++ tail.1, head.2 ++ tail.2)

/-! ## Dependency loop and graph builder (`process_project`, lines 153-512) -/

/-- Embeds one iteration of the dependency loop (lines 222-327):
re-expansion and normalization, resolution, the unpacking of the
resolver's return tuple (a 3-tuple raises `ValueError`), the
self-reference skip, the DLL probe, and the per-method dispatch with
recursion for Project-classified dependencies. -/
def depStep (fs : FS) (tp : String) (env : Env) (project_dir : String) (proc : ProcFn)
    (cache : Cache) (dep0 : String) : Cache × List Event × Except Err StepAdd :=
  let dep := normPath (expand_env_vars env (expand_env_vars env dep0))
  match resolve_dependency fs tp dep project_dir with
  | .three => (cache, [], .error .valueError)
  | .four path m loc pkg =>
    if path = "" then (cache, [.errDepNotFound dep], .error .exitFailure)
    else if path = project_dir then (cache, [.noteSkipSelf dep], .ok ⟨[], []⟩)
    else
      let dep_name := if pkg ≠ "" then pkg else basename path
      let dlls := dllProbeList fs path
      let locS := loc.getD ""
      match m with
      | .moduleM =>
        (cache, [.directive project_dir (.moduleD dep_name locS path)],
         .ok ⟨[.plain dep_name], dlls⟩)
      | .configM =>
        (cache, [.directive project_dir (.configD dep_name locS path)],
         .ok ⟨[.configExpr dep_name], dlls⟩)
      | .sourceM =>
        (cache, [.directive project_dir (.sourceD dep_name path)],
         .ok ⟨[.plain dep_name], dlls⟩)
      | .projectM =>
        match proc cache path with
        | (c1, e1, .error err) => (c1, e1, .error err)
        | (c1, e1, .ok d) =>
          (c1, e1 ++ [.directive project_dir (.projectD dep_name d.primary_target path)],
           .ok ⟨(match d.primary_target with
                  | some t => if t = "" then [] else [.plain t]
                  | none => []),
                dlls ++ d.dll_copy_dirs⟩)
      | .rootM =>
        (cache, [.directive project_dir (.rootD dep_name path)],
         .ok ⟨[.libVar dep_name], dlls⟩)
      | .unknownM =>
        (cache, [.warnUnknownSkip dep_name path], .ok ⟨[], dlls⟩)

/-- The dependency loop: processes the expanded dependency list in
order, threading the memo map and accumulating targets and artifact
directories; any fatal outcome aborts the whole loop. -/
def depLoop (fs : FS) (tp : String) (env : Env) (project_dir : String) (proc : ProcFn) :
    Cache → LoopSt → List String → Cache × List Event × Except Err LoopSt
  | cache, st, [] => (cache, [], .ok st)
  | cache, st, dep :: rest =>
    match depStep fs tp env project_dir proc cache dep with
    | (c1, e1, .error e) => (c1, e1, .error e)
    | (c1, e1, .ok add) =>
      match depLoop fs tp env project_dir proc c1 ⟨st.targets ++ add.targets, st.dlls ++ add.dlls⟩ rest with
      | (c2, e2, r) => (c2, e1 ++ e2, r)

/-- The manifest-path key under which a project is memoized (line 155). -/
def manifestKey (dir : String) : String := pjoin dir "Project.json"

/-- Embeds `process_project` (lines 153-512): existence check for the
manifest, memo lookup, manifest load, primary-target derivation
(lines 175-179), wildcard pre-pass, the dependency loop, the
executable-without-entry check — which the source performs only at
emission time, after the whole dependency loop (lines 455-459) — and
finally caching of the completed descriptor (line 510).  The `Nat`
budget models the unbounded recursion of the source (no cycle guard). -/
def process_project (fs : FS) (tp : String) (env : Env) :
    Nat → Cache → String → Cache × List Event × Except Err Descriptor
  | 0, cache, _ => (cache, [], .error .fuelExhausted)
  | fuel + 1, cache, project_dir =>
    if ¬ fs.pathExists (manifestKey project_dir) then
      (cache, [.errNoProject project_dir], .error .exitFailure)
    else
      match lookupC cache (manifestKey project_dir) with
      | some d => (cache, [], .ok d)
      | none =>
        match fs.manifestAt project_dir with
        | none => (cache, [], .error .exitFailure)
        | some m =>
          let primary : Option String :=
            if m.libCompile then some (m.name ++ "Lib")
            else if m.execCompile then some m.name
            else none
          let expanded := expandWildcardDeps fs env m.dependencies
          match depLoop fs tp env project_dir (process_project fs tp env fuel) cache ⟨[], []⟩ expanded.1 with
          | (c1, e1, .error err) =>
            (c1, .computed project_dir :: (expanded.2 ++ e1), .error err)
          | (c1, e1, .ok st) =>
            if m.execCompile ∧ m.execEntry = none then
              (c1, .computed project_dir :: (expanded.2 ++ e1 ++ [.errNoEntry m.name]),
               .error .exitFailure)
            else
              ((manifestKey project_dir, ⟨primary, st.dlls⟩) :: c1,
               .computed project_dir :: (expanded.2 ++ e1 ++ [.generated project_dir]),
               .ok ⟨primary, st.dlls⟩)

/-- The manifest directories computed (cache misses) during a run, in
computation order. -/
def computedDirs (evs : List Event) : List String :=
  evs.filterMap fun e =>
    match e with
    | .computed d => some d
    | _ => none

/-! ## Memoization invariants for the graph builder -/

/-- The directories on which `process_project` recurses from `dir`:
dependencies that, after expansion, normalization and resolution, are
classified as nested projects and are neither the directory itself nor
empty. -/
def projChildren (fs : FS) (tp : String) (env : Env) (dir : String) : List String :=
  match fs.manifestAt dir with
  | none => []
  | some m =>
    ((expandWildcardDeps fs env m.dependencies).1).flatMap fun dep0 =>
      match resolve_dependency fs tp
          (normPath (expand_env_vars env (expand_env_vars env dep0))) dir with
      | .four path .projectM _ _ => if path = dir ∨ path = "" then [] else [path]
      | _ => []

/-- Acyclicity of the manifest graph, witnessed by a rank function that
strictly decreases along every nested-project edge. -/
def RankOk (fs : FS) (tp : String) (env : Env) (rank : String → Nat) : Prop :=
  ∀ p ∈ fs.manifests.map Prod.fst, ∀ q ∈ projChildren fs tp env p, rank q < rank p

/-- Every newly computed directory was absent from the memo map when the
call started. -/
def FreshComputed (cache : Cache) (news : List String) : Prop :=
  ∀ q ∈ news, lookupC cache (manifestKey q) = none

/-- Every newly computed directory is present in the memo map when the
call returns. -/
def CachedAfter (c' : Cache) (news : List String) : Prop :=
  ∀ q ∈ news, (lookupC c' (manifestKey q)).isSome = true

/-- The memo map only grows, and every new key stems from a newly
computed directory. -/
def CacheExtends (cache c' : Cache) (news : List String) : Prop :=
  (∀ k v, lookupC cache k = some v → lookupC c' k = some v) ∧
  (∀ k, lookupC c' k ≠ lookupC cache k → ∃ q ∈ news, manifestKey q = k)

/-- Full soundness of one graph-builder call: ranks of computed
directories are bounded, no directory is computed twice, computed
directories were fresh and end up cached, the memo map grows
monotonically, and the result is cached under the call's manifest key. -/
def GoodProc (fs : FS) (tp : String) (env : Env) (rank : String → Nat) (proc : ProcFn) : Prop :=
  ∀ cache p c' evs d, proc cache p = (c', evs, .ok d) →
    (∀ q ∈ computedDirs evs, rank q ≤ rank p) ∧
    (computedDirs evs).Nodup ∧
    FreshComputed cache (computedDirs evs) ∧
    CachedAfter c' (computedDirs evs) ∧
    CacheExtends cache c' (computedDirs evs) ∧
    lookupC c' (manifestKey p) = some d

/-! ## Concrete worlds used by witnesses and counterexamples -/

/-- Dependency directory of the Config-scoring acceptance example. -/
def tpC5 : String := "/r/3rdparty/opencascade-7.9.3"

/-- World for the Config-scoring example: the dependency directory holds
exactly the two candidate config files. -/
def fsC5 : FS :=
  { dirs := ["/r", "/r/3rdparty", tpC5]
    files := [pjoin tpC5 "OpenCASCADEConfig.cmake", pjoin tpC5 "7.9.3Config.cmake"]
    manifests := [] }

/-- World for the missing-dependency run: the project declares a
dependency that exists under none of the three search bases. -/
def fsC2 : FS :=
  { dirs := ["/r", "/r/p", "/r/3rdparty"]
    files := ["/r/p/Project.json"]
    manifests := [("/r/p", { name := "App", dependencies := ["missing"] })] }

/-- World for the unclassifiable-dependency run: `/r/u` exists but holds
no marker of any import strategy. -/
def fsC3 : FS :=
  { dirs := ["/r", "/r/p", "/r/u", "/r/3rdparty"]
    files := ["/r/p/Project.json", "/r/u/readme.txt"]
    manifests := [("/r/p", { name := "App", dependencies := ["/r/u"] })] }

/-- Root of the depth-bound world. -/
def tpC4 : String := "/t/dep"

/-- Directory six levels below the depth-bound world's root. -/
def dirDepth6 : String := "/t/dep/a1/a2/a3/a4/a5/a6"

/-- Directory seven levels below the depth-bound world's root. -/
def dirDepth7 : String := "/t/dep/a1/a2/a3/a4/a5/a6/a7"

/-- World for the depth bound: a chain of nested directories with one
candidate config file six levels down and another seven levels down. -/
def fsC4 : FS :=
  { dirs := ["/t", tpC4, "/t/dep/a1", "/t/dep/a1/a2", "/t/dep/a1/a2/a3",
             "/t/dep/a1/a2/a3/a4", "/t/dep/a1/a2/a3/a4/a5", dirDepth6, dirDepth7]
    files := [pjoin dirDepth6 "XConfig.cmake", pjoin dirDepth7 "YConfig.cmake"]
    manifests := [] }

/-- World for the executable-without-entry run: the root manifest
enables an executable with no entry file and declares one nested-project
dependency. -/
def fsC7 : FS :=
  { dirs := ["/r", "/r/p", "/r/c", "/r/3rdparty"]
    files := ["/r/p/Project.json", "/r/c/Project.json"]
    manifests := [("/r/p", { name := "App", dependencies := ["/r/c"], execCompile := true }),
                  ("/r/c", { name := "C" })] }

/-- World for wildcard expansion: `/r/w` holds exactly the
subdirectories `a`, `b`, `c` and one plain file. -/
def fsC9 : FS :=
  { dirs := ["/r", "/r/w", "/r/w/a", "/r/w/b", "/r/w/c", "/r/3rdparty"]
    files := ["/r/w/note.txt"]
    manifests := [] }

/-- World for wildcard expansion over a parent with no subdirectories. -/
def fsC9b : FS :=
  { dirs := ["/r", "/r/w2", "/r/3rdparty"]
    files := []
    manifests := [] }

/-- World for artifact propagation: the parent project depends on the
nested project `/r/c`, which depends on the unclassifiable `/r/u` whose
`bin` directory holds a shared library. -/
def fsC10 : FS :=
  { dirs := ["/r", "/r/p", "/r/c", "/r/u", "/r/u/bin", "/r/3rdparty"]
    files := ["/r/p/Project.json", "/r/c/Project.json", "/r/u/bin/x.dll"]
    manifests := [("/r/p", { name := "App", dependencies := ["/r/c"] }),
                  ("/r/c", { name := "C", dependencies := ["/r/u"], libCompile := true })] }

/-- World for memoization: an acyclic diamond of nested manifests where
`/r/D` is reachable from the root along two paths. -/
def fsC1 : FS :=
  { dirs := ["/r", "/r/A", "/r/B", "/r/C", "/r/D", "/r/3rdparty"]
    files := ["/r/A/Project.json", "/r/B/Project.json", "/r/C/Project.json", "/r/D/Project.json"]
    manifests := [("/r/A", { name := "A", dependencies := ["/r/B", "/r/C"] }),
                  ("/r/B", { name := "B", dependencies := ["/r/D"] }),
                  ("/r/C", { name := "C", dependencies := ["/r/D"] }),
                  ("/r/D", { name := "D" })] }

/-- Rank function witnessing that the diamond world is acyclic. -/
def rankC1 : String → Nat :=
  fun s =>
    if s = "/r/A" then 3
    else if s = "/r/B" then 2
    else if s = "/r/C" then 2
    else if s = "/r/D" then 1
    else 0

/-- World for the self-referential dependency: the project declares its
own directory as a dependency. -/
def fsC8 : FS :=
  { dirs := ["/r", "/r/p", "/r/3rdparty"]
    files := ["/r/p/Project.json"]
    manifests := [("/r/p", { name := "App", dependencies := ["/r/p"] })] }

/-! ## Helper lemmas -/

theorem configWalkG_eq_boundedScan (fs : FS) (ctx : ScoreCtx) :
    ∀ (b g d : Nat) (p : String), d + b = 6 → b < g →
      configWalkG fs ctx g p d = boundedScan fs ctx b p := by
  intro b
  induction b with
  | zero =>
    intro g d p hdb hg
    match g, hg with
    | g' + 1, _ =>
      have hd : d = 6 := by omega
      subst hd
      simp [configWalkG, boundedScan]
  | succ b ih =>
    intro g d p hdb hg
    match g, hg with
    | g' + 1, _ =>
      have hd : ¬ d > 5 := by omega
      simp only [configWalkG, boundedScan, if_neg hd]
      have harg : (fun dd => configWalkG fs ctx g' (pjoin p dd) (d + 1)) =
          (fun dd => boundedScan fs ctx b (pjoin p dd)) := by
        funext dd
        exact ih g' (d + 1) (pjoin p dd) (by omega) (by omega)
      rw [harg]

theorem computedDirs_append (a b : List Event) :
    computedDirs (a ++ b) = computedDirs a ++ computedDirs b := by
  simp [computedDirs]

theorem alookup_mem_keys {β : Type} {l : List (String × β)} {k : String} {v : β}
    (h : alookup l k = some v) : k ∈ l.map Prod.fst := by
  induction l with
  | nil => simp [alookup] at h
  | cons hd tl ih =>
    by_cases hk : k = hd.1
    · simp [hk]
    · simp only [alookup] at h
      rw [if_neg hk] at h
      simp [ih h]

theorem startsSeg_self_append (a b : List Char) : startsSeg a (a ++ b) = true := by
  induction a with
  | nil => simp [startsSeg]
  | cons c t ih => simp [startsSeg, ih]

theorem hasSeg_of_startsSeg {a hay : List Char} (h : startsSeg a hay = true) :
    hasSeg a hay = true := by
  cases hay with
  | nil =>
    cases a with
    | nil => simp [hasSeg]
    | cons c t => simp [startsSeg] at h
  | cons c t => simp [hasSeg, h]

theorem containsSub_self_append (a b : String) : containsSub a (a ++ b) = true := by
  unfold containsSub
  have hdata : (a ++ b).toList = a.toList ++ b.toList := by
    simp [String.toList]
  rw [hdata]
  exact hasSeg_of_startsSeg (startsSeg_self_append _ _)

/-! ## Claim theorems -/

/-- C5: for the dependency directory `opencascade-7.9.3` containing
exactly `OpenCASCADEConfig.cmake` and `7.9.3Config.cmake`, the
classifier chooses the Config strategy with `OpenCASCADEConfig.cmake`
as the winning candidate at score 10 and package name `OpenCASCADE`
(the other candidate scores 0). -/
theorem claim_C5 :
    check_import_method fsC5 tpC5 = (Method.configM, some tpC5, "OpenCASCADE") ∧
    configWalk fsC5 (mkCtx tpC5) tpC5 0 =
      [⟨"OpenCASCADEConfig.cmake", "OpenCASCADE", tpC5, 10⟩,
       ⟨"7.9.3Config.cmake", "7.9.3", tpC5, 0⟩] := by
  decide

/-- C2: on a dependency that exists under none of the three search
bases, the run aborts with the uncaught `ValueError` from unpacking the
resolver's 3-tuple into four names, and no diagnostic naming the
reference is emitted: the intended `Error: Dependency not found` print
of line 234 is unreachable. -/
theorem claim_C2_bug :
    (process_project fsC2 "/r/3rdparty" [] 5 [] "/r/p").2.2 = .error .valueError ∧
    (process_project fsC2 "/r/3rdparty" [] 5 [] "/r/p").2.1 = [.computed "/r/p"] ∧
    Event.errDepNotFound "missing" ∉ (process_project fsC2 "/r/3rdparty" [] 5 [] "/r/p").2.1 := by
  decide

/-- C3 counterexample: a dependency classified Unknown does not abort
the run — the whole resolution succeeds, the dependency contributes no
directive, and only a warning naming the package name and resolved path
is emitted. -/
theorem claim_C3_cex :
    (process_project fsC3 "/r/3rdparty" [] 5 [] "/r/p").2.2 = .ok ⟨none, []⟩ ∧
    (process_project fsC3 "/r/3rdparty" [] 5 [] "/r/p").2.1 =
      [.computed "/r/p", .warnUnknownSkip "u" "/r/u", .generated "/r/p"] := by
  decide

/-- C4 counterexample: a candidate config file in a directory six levels
below the dependency root — deeper than the claimed bound of 5 — is both
considered and chosen as the winning candidate (while a file seven
levels down is pruned). -/
theorem claim_C4_cex :
    configWalk fsC4 (mkCtx tpC4) tpC4 0 = [⟨"XConfig.cmake", "X", dirDepth6, 0⟩] ∧
    check_import_method fsC4 tpC4 = (Method.configM, some dirDepth6, "X") ∧
    (dirDepth6.toList.drop tpC4.toList.length).count '/' = 6 := by
  decide

/-- C4 (amended): the Config scan equals the scan bounded to six
directory levels below the dependency root — descent is pruned only
once the depth exceeds 5, so files in directories at depth 6 are still
considered, and nothing deeper than 6 ever is. -/
theorem claim_C4 (fs : FS) (ctx : ScoreCtx) (p : String) :
    configWalk fs ctx p 0 = boundedScan fs ctx 6 p :=
  configWalkG_eq_boundedScan fs ctx 6 7 0 p rfl (by omega)

/-- C7 counterexample: with an executable enabled and no entry file, the
run does fail fatally, but only after the declared nested-project
dependency has been expanded, resolved, classified, recursively
processed and cached — the `computed` and `generated` events of `/r/c`
precede the entry-file diagnostic, and `/r/c` sits in the memo map. -/
theorem claim_C7_cex :
    process_project fsC7 "/r/3rdparty" [] 5 [] "/r/p" =
      ([("/r/c/Project.json", ⟨none, []⟩)],
       [.computed "/r/p", .computed "/r/c", .generated "/r/c",
        .directive "/r/p" (.projectD "c" none "/r/c"), .errNoEntry "App"],
       .error .exitFailure) := by
  decide

/-- C6 counterexample: in the version-directory `Foo1.2` (cleaned name
`Foo`) with parent `Foobar`, the candidate `FoobarConfig.cmake` matches
the parent name exactly yet scores 7, not 8, because the cleaned-name
substring branch is evaluated first. -/
theorem claim_C6_cex :
    scoreFile (mkCtx "/r/Foobar/Foo1.2") "FoobarConfig.cmake" = 7 ∧
    (mkCtx "/r/Foobar/Foo1.2").isVersionDir = true ∧
    lowerS "FoobarConfig.cmake" =
      lowerS (mkCtx "/r/Foobar/Foo1.2").parentName ++ "config.cmake" ∧
    (7 : Nat) ≠ 8 := by
  decide

/-- C6 (amended): a candidate whose name exactly matches the parent
directory name plus the config suffix receives score 8 only when, in
addition to the version-directory condition, neither the cleaned name
nor the raw name occurs as a substring of the candidate; when one of
those substring conditions holds, the earlier branch (7 or 5) wins. -/
theorem claim_C6 (ctx : ScoreCtx) (f : String)
    (hv : ctx.isVersionDir = true)
    (hp : lowerS f = lowerS ctx.parentName ++ "config.cmake")
    (hc : containsSub (lowerS ctx.cleanN) (lowerS f) = false)
    (ht : containsSub (lowerS ctx.tpName) (lowerS f) = false) :
    scoreFile ctx f = 8 := by
  have h10 : ¬ (lowerS f = lowerS ctx.cleanN ++ "config.cmake" ∨
      lowerS f = lowerS ctx.cleanN ++ "-config.cmake") := by
    rintro (he | he) <;> rw [he, containsSub_self_append] at hc <;> simp at hc
  have h9 : ¬ (lowerS f = lowerS ctx.tpName ++ "config.cmake" ∨
      lowerS f = lowerS ctx.tpName ++ "-config.cmake") := by
    rintro (he | he) <;> rw [he, containsSub_self_append] at ht <;> simp at ht
  simp only [scoreFile]
  rw [if_neg h10, if_neg h9]
  rw [if_neg (by simp [hc]), if_neg (by simp [ht])]
  rw [if_pos ⟨by simp [hv], Or.inl hp⟩]

/-- C6 amended-claim witness: in the version-directory `1.2` under
parent `Bar`, the candidate `BarConfig.cmake` matches the parent name
exactly, no substring branch applies, and the score is 8. -/
theorem claim_C6_witness :
    scoreFile (mkCtx "/r/Bar/1.2") "BarConfig.cmake" = 8 :=
  claim_C6 (mkCtx "/r/Bar/1.2") "BarConfig.cmake"
    (by decide) (by decide) (by decide) (by decide)

/-- Unfolds one Unknown-classified step of the dependency loop: the DLL
probe has already run, so its result is kept even though the dependency
is skipped with a warning and contributes neither a directive nor a
link target. -/
theorem depStep_unknown (fs : FS) (tp : String) (env : Env) (project_dir : String)
    (proc : ProcFn) (cache : Cache) (dep path : String) (loc : Option String) (pkg : String)
    (hres : resolve_dependency fs tp
      (normPath (expand_env_vars env (expand_env_vars env dep))) project_dir
        = .four path .unknownM loc pkg)
    (hne : path ≠ "") (hself : path ≠ project_dir) :
    depStep fs tp env project_dir proc cache dep =
      (cache, [.warnUnknownSkip (if pkg ≠ "" then pkg else basename path) path],
       .ok ⟨[], dllProbeList fs path⟩) := by
  simp only [depStep]
  rw [hres]
  simp only [if_neg hne, if_neg hself]

/-- C3 (amended): a dependency classified Unknown is not fatal — the
loop emits a warning naming the derived package name and the resolved
path, keeps any probed artifact directory, contributes no directive and
no link target, and continues with the remaining dependencies. -/
theorem claim_C3 (fs : FS) (tp : String) (env : Env) (project_dir : String)
    (proc : ProcFn) (cache : Cache) (st : LoopSt) (dep : String) (rest : List String)
    (path : String) (loc : Option String) (pkg : String)
    (hres : resolve_dependency fs tp
      (normPath (expand_env_vars env (expand_env_vars env dep))) project_dir
        = .four path .unknownM loc pkg)
    (hne : path ≠ "") (hself : path ≠ project_dir) :
    depLoop fs tp env project_dir proc cache st (dep :: rest) =
      (match depLoop fs tp env project_dir proc cache
          ⟨st.targets, st.dlls ++ dllProbeList fs path⟩ rest with
       | (c2, e2, r) =>
         (c2, Event.warnUnknownSkip (if pkg ≠ "" then pkg else basename path) path :: e2, r)) := by
  have hstep := depStep_unknown fs tp env project_dir proc cache dep path loc pkg hres hne hself
  simp only [depLoop]
  rw [hstep]
  simp

/-- C3 amended-claim witness: the Unknown dependency `/r/u` of `fsC3`
yields one warning, no directive, and the loop terminates successfully. -/
theorem claim_C3_witness :
    depLoop fsC3 "/r/3rdparty" [] "/r/p" (process_project fsC3 "/r/3rdparty" [] 4)
        [] ⟨[], []⟩ ["/r/u"] =
      ([], [.warnUnknownSkip "u" "/r/u"], .ok ⟨[], []⟩) := by
  rw [claim_C3 fsC3 "/r/3rdparty" [] "/r/p" (process_project fsC3 "/r/3rdparty" [] 4)
    [] ⟨[], []⟩ "/r/u" [] "/r/u" none "u" (by decide) (by decide) (by decide)]
  decide

/-- C8: a dependency resolving to the requesting project's own
directory is dropped with a note — it contributes no directive, no link
target and no artifact directory, and the loop continues unchanged. -/
theorem claim_C8 (fs : FS) (tp : String) (env : Env) (project_dir : String)
    (proc : ProcFn) (cache : Cache) (st : LoopSt) (dep : String) (rest : List String)
    (m : Method) (loc : Option String) (pkg : String)
    (hres : resolve_dependency fs tp
      (normPath (expand_env_vars env (expand_env_vars env dep))) project_dir
        = .four project_dir m loc pkg)
    (hne : project_dir ≠ "") :
    depLoop fs tp env project_dir proc cache st (dep :: rest) =
      (match depLoop fs tp env project_dir proc cache st rest with
       | (c2, e2, r) =>
         (c2, Event.noteSkipSelf (normPath (expand_env_vars env (expand_env_vars env dep))) :: e2, r)) := by
  have hstep : depStep fs tp env project_dir proc cache dep =
      (cache, [.noteSkipSelf (normPath (expand_env_vars env (expand_env_vars env dep)))],
       .ok ⟨[], []⟩) := by
    simp only [depStep]
    rw [hres]
    simp [hne]
  simp only [depLoop]
  rw [hstep]
  simp

/-- C8 witness: the self-referential dependency of `fsC8` is skipped
with a note and the loop succeeds with nothing accumulated. -/
theorem claim_C8_witness :
    depLoop fsC8 "/r/3rdparty" [] "/r/p" (process_project fsC8 "/r/3rdparty" [] 4)
        [] ⟨[], []⟩ ["/r/p"] =
      ([], [.noteSkipSelf "/r/p"], .ok ⟨[], []⟩) := by
  rw [claim_C8 fsC8 "/r/3rdparty" [] "/r/p" (process_project fsC8 "/r/3rdparty" [] 4)
    [] ⟨[], []⟩ "/r/p" [] Method.projectM (some "/r/p") "p" (by decide) (by decide)]
  decide

/-- C9: a dependency reference that, after expansion and normalization,
ends in the wildcard marker expands to exactly one reference per
immediate subdirectory of its parent directory (in listing order); when
the parent is missing or has no subdirectories, only a warning is
emitted and the reference contributes nothing. -/
theorem claim_C9 (fs : FS) (env : Env) (raw : String)
    (hw : endsWithS (normPath (expand_env_vars env raw)) "*" = true) :
    (fs.isDir (dirname (normPath (expand_env_vars env raw))) = true →
      (wildSubdirs fs (dirname (normPath (expand_env_vars env raw))) = [] →
        expandOneDep fs env raw = ([], [.warnWildcardEmpty (expand_env_vars env raw)])) ∧
      (wildSubdirs fs (dirname (normPath (expand_env_vars env raw))) ≠ [] →
        expandOneDep fs env raw =
          ((wildSubdirs fs (dirname (normPath (expand_env_vars env raw)))).map
            (fun entry => pjoin (dirname (normPath (expand_env_vars env raw))) entry), []))) ∧
    (fs.isDir (dirname (normPath (expand_env_vars env raw))) = false →
      expandOneDep fs env raw =
        ([], [.warnWildcardBase (dirname (normPath (expand_env_vars env raw))) raw])) := by
  refine ⟨fun hdir => ⟨fun hempty => ?_, fun hsome => ?_⟩, fun hnodir => ?_⟩
  · simp [expandOneDep, hw, hdir, hempty]
  · simp only [expandOneDep, hw, if_true]
    rw [if_pos hdir]
    rw [if_neg (by simp [hsome])]
  · simp [expandOneDep, hw, hnodir]

/-- C9 witness: the wildcard `/r/w/*` over a parent with subdirectories
`a`, `b`, `c` (plus one plain file) yields exactly three references;
over a parent without subdirectories, or a missing parent, only the
respective warning. -/
theorem claim_C9_witness :
    expandOneDep fsC9 [] "/r/w/*" = (["/r/w/a", "/r/w/b", "/r/w/c"], []) ∧
    expandOneDep fsC9b [] "/r/w2/*" = ([], [.warnWildcardEmpty "/r/w2/*"]) ∧
    expandOneDep fsC9 [] "/r/miss/*" = ([], [.warnWildcardBase "/r/miss" "/r/miss/*"]) := by
  refine ⟨?_, ?_, ?_⟩
  · have h1 := claim_C9 fsC9 [] "/r/w/*" (by decide)
    have h2 := (h1.1 (by decide)).2 (by decide)
    rw [h2]
    decide
  · have h1 := claim_C9 fsC9b [] "/r/w2/*" (by decide)
    have h2 := (h1.1 (by decide)).1 (by decide)
    rw [h2]
    decide
  · have h1 := claim_C9 fsC9 [] "/r/miss/*" (by decide)
    have h2 := h1.2 (by decide)
    rw [h2]
    decide

/-- C10: the artifact probe runs for every resolved non-self dependency
before the classification outcome is applied — an Unknown-classified
dependency still contributes its probed artifact directory while adding
no directive — and, end to end, an artifact found under an Unknown
dependency of a nested project is cached in that project's descriptor
and propagated to the dependent root project. -/
theorem claim_C10 :
    (∀ (fs : FS) (tp : String) (env : Env) (project_dir : String) (proc : ProcFn)
        (cache : Cache) (dep path : String) (loc : Option String) (pkg : String),
      resolve_dependency fs tp
          (normPath (expand_env_vars env (expand_env_vars env dep))) project_dir
            = .four path .unknownM loc pkg →
      path ≠ "" → path ≠ project_dir →
      depStep fs tp env project_dir proc cache dep =
        (cache, [.warnUnknownSkip (if pkg ≠ "" then pkg else basename path) path],
         .ok ⟨[], dllProbeList fs path⟩)) ∧
    process_project fsC10 "/r/3rdparty" [] 5 [] "/r/p" =
      ([("/r/p/Project.json", ⟨none, ["/r/u/bin"]⟩),
        ("/r/c/Project.json", ⟨some "CLib", ["/r/u/bin"]⟩)],
       [.computed "/r/p", .computed "/r/c", .warnUnknownSkip "u" "/r/u", .generated "/r/c",
        .directive "/r/p" (.projectD "c" (some "CLib") "/r/c"), .generated "/r/p"],
       .ok ⟨none, ["/r/u/bin"]⟩) := by
  constructor
  · intro fs tp env project_dir proc cache dep path loc pkg hres hne hself
    exact depStep_unknown fs tp env project_dir proc cache dep path loc pkg hres hne hself
  · decide

/-- C10 witness: the Unknown dependency `/r/u` of project `/r/c` still
contributes its probed `bin` artifact directory while being skipped. -/
theorem claim_C10_witness :
    depStep fsC10 "/r/3rdparty" [] "/r/c" (process_project fsC10 "/r/3rdparty" [] 4)
        [] "/r/u" =
      ([], [.warnUnknownSkip "u" "/r/u"], .ok ⟨[], ["/r/u/bin"]⟩) := by
  rw [claim_C10.1 fsC10 "/r/3rdparty" [] "/r/c" (process_project fsC10 "/r/3rdparty" [] 4)
    [] "/r/u" "/r/u" none "u" (by decide) (by decide) (by decide)]
  decide

/-- C7 (amended): a manifest that enables an executable without an
entry file does fail fatally, but the failure is raised only after the
whole dependency loop — every declared dependency has already been
expanded, resolved, classified and (for nested projects) recursively
processed, and the loop's memo-map updates are retained. -/
theorem claim_C7 (fs : FS) (tp : String) (env : Env) (fuel : Nat) (cache : Cache)
    (project_dir : String) (m : Manifest) (c1 : Cache) (e1 : List Event) (st : LoopSt)
    (hex : fs.pathExists (manifestKey project_dir) = true)
    (hmiss : lookupC cache (manifestKey project_dir) = none)
    (hman : fs.manifestAt project_dir = some m)
    (hexec : m.execCompile = true)
    (hentry : m.execEntry = none)
    (hloop : depLoop fs tp env project_dir (process_project fs tp env fuel) cache ⟨[], []⟩
      (expandWildcardDeps fs env m.dependencies).1 = (c1, e1, .ok st)) :
    process_project fs tp env (fuel + 1) cache project_dir =
      (c1, .computed project_dir ::
        ((expandWildcardDeps fs env m.dependencies).2 ++ e1 ++ [.errNoEntry m.name]),
       .error .exitFailure) := by
  simp only [process_project]
  rw [if_neg (not_not_intro hex)]
  simp only [hmiss, hman, hloop]
  rw [if_pos ⟨hexec, hentry⟩]

/-- C7 amended-claim witness: on the concrete world the entry-file
failure is raised only after the nested project `/r/c` was processed
and cached. -/
theorem claim_C7_witness :
    process_project fsC7 "/r/3rdparty" [] 5 [] "/r/p" =
      ([("/r/c/Project.json", ⟨none, []⟩)],
       .computed "/r/p" ::
         ([] ++ [.computed "/r/c", .generated "/r/c",
                 .directive "/r/p" (.projectD "c" none "/r/c")] ++ [.errNoEntry "App"]),
       .error .exitFailure) := by
  rw [claim_C7 fsC7 "/r/3rdparty" [] 4 [] "/r/p"
    { name := "App", dependencies := ["/r/c"], execCompile := true }
    [("/r/c/Project.json", ⟨none, []⟩)]
    [.computed "/r/c", .generated "/r/c", .directive "/r/p" (.projectD "c" none "/r/c")]
    ⟨[], []⟩ (by decide) (by decide) (by decide) (by decide) (by decide) (by decide)]
  decide


/-! ## C1: memoization invariants -/

theorem lookupC_cons (k : String) (v : Descriptor) (c : Cache) (k0 : String) :
    lookupC ((k, v) :: c) k0 = if k0 = k then some v else lookupC c k0 := rfl

theorem computedDirs_single_directive (dir : String) (d : Directive) :
    computedDirs [Event.directive dir d] = [] := rfl

theorem computedDirs_expandOne (fs : FS) (env : Env) (raw : String) :
    computedDirs (expandOneDep fs env raw).2 = [] := by
  simp only [expandOneDep]
  split
  · split
    · split <;> simp [computedDirs]
    · simp [computedDirs]
  · simp [computedDirs]

theorem computedDirs_expandWildcard (fs : FS) (env : Env) :
    ∀ l : List String, computedDirs (expandWildcardDeps fs env l).2 = []
  | [] => rfl
  | raw :: rest => by
    simp only [expandWildcardDeps]
    rw [computedDirs_append, computedDirs_expandOne, computedDirs_expandWildcard fs env rest]
    rfl

theorem inv_of_no_computed (fs : FS) (tp : String) (env : Env) (rank : String → Nat)
    (R : Nat) (cache : Cache) (evs : List Event) (h : computedDirs evs = []) :
    (∀ q ∈ computedDirs evs, rank q < R) ∧
    (computedDirs evs).Nodup ∧
    FreshComputed cache (computedDirs evs) ∧
    CachedAfter cache (computedDirs evs) ∧
    CacheExtends cache cache (computedDirs evs) := by
  rw [h]
  exact ⟨by simp, by simp, by simp [FreshComputed], by simp [CachedAfter],
    fun k v hv => hv, fun k hk => absurd rfl hk⟩

/-- Invariant of one dependency-loop step: any directories computed by
the step are strictly below the rank bound, computed at most once, fresh
before and cached after, and the memo map only grows. -/
theorem depStep_inv (fs : FS) (tp : String) (env : Env) (rank : String → Nat)
    (proc : ProcFn) (hproc : GoodProc fs tp env rank proc)
    (R : Nat) (project_dir dep : String) (cache c1 : Cache) (e1 : List Event) (add : StepAdd)
    (hdep : ∀ path loc pkg,
      resolve_dependency fs tp
        (normPath (expand_env_vars env (expand_env_vars env dep))) project_dir
          = .four path .projectM loc pkg → path ≠ project_dir → path ≠ "" → rank path < R)
    (hstep : depStep fs tp env project_dir proc cache dep = (c1, e1, .ok add)) :
    (∀ q ∈ computedDirs e1, rank q < R) ∧
    (computedDirs e1).Nodup ∧
    FreshComputed cache (computedDirs e1) ∧
    CachedAfter c1 (computedDirs e1) ∧
    CacheExtends cache c1 (computedDirs e1) := by
  simp only [depStep] at hstep
  split at hstep
  · simp at hstep
  · rename_i path m loc pkg hres
    split at hstep
    · simp at hstep
    · rename_i hpe
      split at hstep
      · simp only [Prod.mk.injEq] at hstep
        obtain ⟨hc, he, _⟩ := hstep
        subst hc
        subst he
        exact inv_of_no_computed fs tp env rank R cache _ rfl
      · rename_i hps
        split at hstep
        · simp only [Prod.mk.injEq] at hstep
          obtain ⟨hc, he, _⟩ := hstep
          subst hc
          subst he
          exact inv_of_no_computed fs tp env rank R cache _ rfl
        · simp only [Prod.mk.injEq] at hstep
          obtain ⟨hc, he, _⟩ := hstep
          subst hc
          subst he
          exact inv_of_no_computed fs tp env rank R cache _ rfl
        · simp only [Prod.mk.injEq] at hstep
          obtain ⟨hc, he, _⟩ := hstep
          subst hc
          subst he
          exact inv_of_no_computed fs tp env rank R cache _ rfl
        · -- nested-project dependency: recursive call
          rcases hrec : proc cache path with ⟨cp, ep, resp⟩
          rw [hrec] at hstep
          cases resp with
          | error err => simp at hstep
          | ok d =>
            simp only [Prod.mk.injEq] at hstep
            obtain ⟨hc, he, _⟩ := hstep
            subst hc
            subst he
            obtain ⟨gA, gB, gC, gD, gE, gKey⟩ := hproc cache path cp ep d hrec
            rw [computedDirs_append, computedDirs_single_directive, List.append_nil]
            have hlt : rank path < R := hdep path loc pkg hres hps hpe
            exact ⟨fun q hq => lt_of_le_of_lt (gA q hq) hlt, gB, gC, gD, gE⟩
        · simp only [Prod.mk.injEq] at hstep
          obtain ⟨hc, he, _⟩ := hstep
          subst hc
          subst he
          exact inv_of_no_computed fs tp env rank R cache _ rfl
        · simp only [Prod.mk.injEq] at hstep
          obtain ⟨hc, he, _⟩ := hstep
          subst hc
          subst he
          exact inv_of_no_computed fs tp env rank R cache _ rfl

/-- Invariant of the dependency loop, by induction over the expanded
dependency list. -/
theorem depLoop_inv (fs : FS) (tp : String) (env : Env) (rank : String → Nat)
    (proc : ProcFn) (hproc : GoodProc fs tp env rank proc)
    (R : Nat) (project_dir : String) :
    ∀ (deps : List String) (cache : Cache) (st : LoopSt) (c' : Cache)
      (evs : List Event) (st' : LoopSt),
    (∀ dep ∈ deps, ∀ path loc pkg,
      resolve_dependency fs tp
        (normPath (expand_env_vars env (expand_env_vars env dep))) project_dir
          = .four path .projectM loc pkg → path ≠ project_dir → path ≠ "" → rank path < R) →
    depLoop fs tp env project_dir proc cache st deps = (c', evs, .ok st') →
    (∀ q ∈ computedDirs evs, rank q < R) ∧
    (computedDirs evs).Nodup ∧
    FreshComputed cache (computedDirs evs) ∧
    CachedAfter c' (computedDirs evs) ∧
    CacheExtends cache c' (computedDirs evs) := by
  intro deps
  induction deps with
  | nil =>
    intro cache st c' evs st' hdeps heq
    simp only [depLoop, Prod.mk.injEq] at heq
    obtain ⟨hc, he, _⟩ := heq
    subst hc
    subst he
    exact inv_of_no_computed fs tp env rank R cache _ rfl
  | cons dep rest ih =>
    intro cache st c' evs st' hdeps heq
    simp only [depLoop] at heq
    rcases hstep : depStep fs tp env project_dir proc cache dep with ⟨c1, e1, res1⟩
    rw [hstep] at heq
    cases res1 with
    | error e => simp at heq
    | ok add =>
      rcases hrest : depLoop fs tp env project_dir proc c1
          ⟨st.targets ++ add.targets, st.dlls ++ add.dlls⟩ rest with ⟨c2, e2, r2⟩
      simp only [hrest] at heq
      cases r2 with
      | error e => simp at heq
      | ok st2 =>
        simp only [Prod.mk.injEq] at heq
        obtain ⟨hc, he, hr⟩ := heq
        subst hc
        subst he
        obtain ⟨sA, sB, sC, sD, sE⟩ :=
          depStep_inv fs tp env rank proc hproc R project_dir dep cache c1 e1 add
            (hdeps dep (by simp)) hstep
        obtain ⟨rA, rB, rC, rD, rE⟩ :=
          ih c1 ⟨st.targets ++ add.targets, st.dlls ++ add.dlls⟩ c2 e2 st2
            (fun d hd => hdeps d (by simp [hd])) hrest
        rw [computedDirs_append]
        have hdisj : (computedDirs e1).Disjoint (computedDirs e2) := by
          intro q hq1 hq2
          have h1 := sD q hq1
          have h2 := rC q hq2
          rw [h2] at h1
          simp at h1
        refine ⟨?_, ?_, ?_, ?_, ?_⟩
        · intro q hq
          rcases List.mem_append.1 hq with h | h
          · exact sA q h
          · exact rA q h
        · exact sB.append rB hdisj
        · intro q hq
          rcases List.mem_append.1 hq with h | h
          · exact sC q h
          · cases hx : lookupC cache (manifestKey q) with
            | none => rfl
            | some v =>
              have hforward := sE.1 (manifestKey q) v hx
              rw [rC q h] at hforward
              exact absurd hforward (by simp)
        · intro q hq
          rcases List.mem_append.1 hq with h | h
          · have h1 := sD q h
            cases hx : lookupC c1 (manifestKey q) with
            | none => rw [hx] at h1; simp at h1
            | some v => rw [rE.1 (manifestKey q) v hx]; rfl
          · exact rD q h
        · constructor
          · intro k v hkv
            exact rE.1 k v (sE.1 k v hkv)
          · intro k hk
            by_cases hmid : lookupC c2 k = lookupC c1 k
            · have h1 : lookupC c1 k ≠ lookupC cache k := by
                rw [← hmid]
                exact hk
              obtain ⟨q, hq, hqe⟩ := sE.2 k h1
              exact ⟨q, List.mem_append.2 (Or.inl hq), hqe⟩
            · obtain ⟨q, hq, hqe⟩ := rE.2 k hmid
              exact ⟨q, List.mem_append.2 (Or.inr hq), hqe⟩

/-- Full soundness of the memoized graph builder, by induction on the
recursion budget: given an acyclic manifest graph, every successful call
satisfies the memoization invariants. -/
theorem process_project_good (fs : FS) (tp : String) (env : Env) (rank : String → Nat)
    (hrank : RankOk fs tp env rank) :
    ∀ fuel, GoodProc fs tp env rank (process_project fs tp env fuel) := by
  intro fuel
  induction fuel with
  | zero =>
    intro cache p c' evs d heq
    simp [process_project] at heq
  | succ fuel ih =>
    intro cache p c' evs d heq
    simp only [process_project] at heq
    by_cases hex : fs.pathExists (manifestKey p) = true
    · rw [if_neg (not_not_intro hex)] at heq
      cases hcache : lookupC cache (manifestKey p) with
      | some d0 =>
        rw [hcache] at heq
        simp only [Prod.mk.injEq] at heq
        obtain ⟨hc, he, hd⟩ := heq
        subst hc
        subst he
        have hd2 : d0 = d := by
          simpa using hd
        refine ⟨fun q hq => ?_, by simp [computedDirs], fun q hq => ?_, fun q hq => ?_,
          ⟨fun k v hv => hv, fun k hk => absurd rfl hk⟩, by rw [hcache, hd2]⟩
        · simp [computedDirs] at hq
        · simp [computedDirs] at hq
        · simp [computedDirs] at hq
      | none =>
        rw [hcache] at heq
        cases hman : fs.manifestAt p with
        | none =>
          rw [hman] at heq
          simp at heq
        | some m =>
          rw [hman] at heq
          rcases hloop : depLoop fs tp env p (process_project fs tp env fuel) cache ⟨[], []⟩
              (expandWildcardDeps fs env m.dependencies).1 with ⟨c1, e1, r1⟩
          cases r1 with
          | error err =>
            simp only [hloop] at heq
            simp at heq
          | ok st =>
            simp only [hloop] at heq
            by_cases hent : m.execCompile = true ∧ m.execEntry = none
            · rw [if_pos hent] at heq
              simp at heq
            · rw [if_neg hent] at heq
              simp only [Prod.mk.injEq] at heq
              obtain ⟨hc, he, hd⟩ := heq
              have hd2 : Descriptor.mk
                  (if m.libCompile = true then some (m.name ++ "Lib")
                   else if m.execCompile = true then some m.name else none) st.dlls = d := by
                simpa using hd
              subst hc
              subst he
              have hdeps : ∀ dep ∈ (expandWildcardDeps fs env m.dependencies).1,
                  ∀ path loc pkg,
                  resolve_dependency fs tp
                    (normPath (expand_env_vars env (expand_env_vars env dep))) p
                      = .four path .projectM loc pkg →
                  path ≠ p → path ≠ "" → rank path < rank p := by
                intro dep hdep path loc pkg hres hps hpe
                have hchild : path ∈ projChildren fs tp env p := by
                  unfold projChildren
                  rw [hman]
                  refine List.mem_flatMap.2 ⟨dep, hdep, ?_⟩
                  rw [hres]
                  simp [hps, hpe]
                exact hrank p (alookup_mem_keys hman) path hchild
              obtain ⟨lA, lB, lC, lD, lE⟩ :=
                depLoop_inv fs tp env rank (process_project fs tp env fuel) ih (rank p) p
                  (expandWildcardDeps fs env m.dependencies).1 cache ⟨[], []⟩ c1 e1 st
                  hdeps hloop
              have hw2 := computedDirs_expandWildcard fs env m.dependencies
              have hcd : computedDirs (Event.computed p ::
                  ((expandWildcardDeps fs env m.dependencies).2 ++ e1 ++ [Event.generated p])) =
                  p :: computedDirs e1 := by
                simp only [computedDirs, List.filterMap_cons, List.filterMap_append]
                simp only [computedDirs] at hw2
                rw [hw2]
                simp
              rw [hcd]
              have hself : p ∉ computedDirs e1 := by
                intro hmem
                exact absurd (lA p hmem) (lt_irrefl _)
              refine ⟨?_, ?_, ?_, ?_, ?_, ?_⟩
              · intro q hq
                rcases List.mem_cons.1 hq with h | h
                · exact le_of_eq (by rw [h])
                · exact le_of_lt (lA q h)
              · exact List.nodup_cons.2 ⟨hself, lB⟩
              · intro q hq
                rcases List.mem_cons.1 hq with h | h
                · rw [h]
                  exact hcache
                · exact lC q h
              · intro q hq
                rw [lookupC_cons]
                by_cases hkq : manifestKey q = manifestKey p
                · rw [if_pos hkq]
                  rfl
                · rw [if_neg hkq]
                  rcases List.mem_cons.1 hq with h | h
                  · exact absurd (by rw [h]) hkq
                  · exact lD q h
              · constructor
                · intro k v hkv
                  rw [lookupC_cons]
                  by_cases hkp : k = manifestKey p
                  · rw [hkp] at hkv
                    rw [hcache] at hkv
                    exact absurd hkv (by simp)
                  · rw [if_neg hkp]
                    exact lE.1 k v hkv
                · intro k hk
                  by_cases hkp : k = manifestKey p
                  · exact ⟨p, List.mem_cons_self p _, hkp.symm⟩
                  · rw [lookupC_cons, if_neg hkp] at hk
                    obtain ⟨q, hq, hqe⟩ := lE.2 k hk
                    exact ⟨q, List.mem_cons_of_mem p hq, hqe⟩
              · rw [lookupC_cons, if_pos rfl, hd2]
    · rw [if_pos (by simp [Bool.not_eq_true] at hex; simp [hex])] at heq
      simp at heq

/-- C1: in an acyclic manifest graph (witnessed by a rank function that
decreases along nested-project edges), a successful run resolves every
manifest at most once — the computed-directory trace has no duplicates —
and caches the result under the manifest path; and any call on an
already-cached manifest path returns the cached descriptor immediately,
with no recomputation and no change to the memo map. -/
theorem claim_C1 :
    (∀ (fs : FS) (tp : String) (env : Env) (rank : String → Nat) (fuel : Nat)
        (cache c' : Cache) (evs : List Event) (root : String) (d : Descriptor),
      RankOk fs tp env rank →
      process_project fs tp env fuel cache root = (c', evs, .ok d) →
      (computedDirs evs).Nodup ∧ lookupC c' (manifestKey root) = some d) ∧
    (∀ (fs : FS) (tp : String) (env : Env) (fuel : Nat) (cache : Cache)
        (p : String) (d : Descriptor),
      fs.pathExists (manifestKey p) = true →
      lookupC cache (manifestKey p) = some d →
      process_project fs tp env (fuel + 1) cache p = (cache, [], .ok d)) := by
  constructor
  · intro fs tp env rank fuel cache c' evs root d hrank heq
    have h := process_project_good fs tp env rank hrank fuel cache root c' evs d heq
    exact ⟨h.2.1, h.2.2.2.2.2⟩
  · intro fs tp env fuel cache p d hex hcache
    simp only [process_project]
    rw [if_neg (not_not_intro hex), hcache]

/-- C1 witness: on the acyclic diamond world the root run computes each
of the four manifests exactly once, and a repeated call on the cached
manifest `/r/D` returns its descriptor with the memo map untouched. -/
theorem claim_C1_witness :
    (computedDirs (process_project fsC1 "/r/3rdparty" [] 10 [] "/r/A").2.1).Nodup ∧
    lookupC (process_project fsC1 "/r/3rdparty" [] 10 [] "/r/A").1
      (manifestKey "/r/A") = some ⟨none, []⟩ ∧
    process_project fsC1 "/r/3rdparty" [] 7
        [("/r/D/Project.json", ⟨none, []⟩)] "/r/D" =
      ([("/r/D/Project.json", ⟨none, []⟩)], [], .ok ⟨none, []⟩) := by
  have hrank : RankOk fsC1 "/r/3rdparty" [] rankC1 := by
    unfold RankOk
    decide
  have hrun : process_project fsC1 "/r/3rdparty" [] 10 [] "/r/A" =
      ((process_project fsC1 "/r/3rdparty" [] 10 [] "/r/A").1,
       (process_project fsC1 "/r/3rdparty" [] 10 [] "/r/A").2.1,
       .ok ⟨none, []⟩) := by decide
  have h := claim_C1.1 fsC1 "/r/3rdparty" [] rankC1 10 []
    (process_project fsC1 "/r/3rdparty" [] 10 [] "/r/A").1
    (process_project fsC1 "/r/3rdparty" [] 10 [] "/r/A").2.1
    "/r/A" ⟨none, []⟩ hrank hrun
  refine ⟨h.1, h.2, ?_⟩
  exact claim_C1.2 fsC1 "/r/3rdparty" [] 6
    [("/r/D/Project.json", ⟨none, []⟩)] "/r/D" ⟨none, []⟩ (by decide) (by decide)

end CMakeTool
